import Mathlib

/-!
Verification development for the URL enumeration and QA inspection tool.
The Python sources are shallowly embedded: strings become lists of
characters, dictionaries become association lists preserving insertion
order, and fallible operations return Except values.
-/

namespace UrlTool

/-- Python strings are modelled as lists of characters. -/
abbrev PyStr := List Char

/-- Characters treated as whitespace by Python str.strip (ASCII subset). -/
def isPySpace (c : Char) : Bool :=
  c = ' ' || c = '\t' || c = '\n' || c = '\r' || c = '\x0b' || c = '\x0c'

/-- Model of Python str.strip with no argument. -/
def pyStrip (l : PyStr) : PyStr :=
  ((l.dropWhile isPySpace).reverse.dropWhile isPySpace).reverse

/-- Characters allowed in a URL scheme by urllib.parse (ascii letters, digits, plus, minus, dot). -/
def isSchemeChar (c : Char) : Bool :=
  c.isAlpha || c.isDigit || c = '+' || c = '-' || c = '.'

/-- Result of urllib.parse.urlparse restricted to the components the tool reads. -/
structure ParseResult where
  scheme : PyStr
  netloc : PyStr
  path : PyStr
  query : PyStr
  frag : PyStr
deriving DecidableEq, Repr

/-- Model of Python str.split(d, 1): the part before the first occurrence of
the delimiter and, when the delimiter occurs, the part after it. -/
def splitFirst (d : Char) (l : PyStr) : PyStr × Option PyStr :=
  let pre := l.takeWhile (fun c => c != d)
  if pre.length = l.length then (l, none) else (pre, some (l.drop (pre.length + 1)))

/-- Index of the last occurrence of a character, assuming it occurs (Python str.rfind). -/
def rfindIdx (d : Char) (l : PyStr) : Nat :=
  l.length - 1 - (l.reverse.takeWhile (fun c => c != d)).length

/-- Model of urllib.parse._splitparams applied to a path: drops a parameter
segment introduced by a semicolon in the last path segment. -/
def splitParamsPath (p : PyStr) : PyStr :=
  if p.contains ';' then
    if p.contains '/' then
      let k := rfindIdx '/' p
      let tail := p.drop k
      let j := (tail.takeWhile (fun c => c != ';')).length
      if j = tail.length then p else p.take (k + j)
    else p.takeWhile (fun c => c != ';')
  else p

/-- Scheme recognition step of urlsplit: the part before the first colon is
the scheme when it is nonempty, starts with an ascii letter and consists of
scheme characters; it is lowercased and removed together with the colon. -/
def schemeSplit (u : PyStr) : PyStr × PyStr :=
  let pre := u.takeWhile (fun c => c != ':')
  if pre.length < u.length ∧ pre ≠ [] ∧ (pre.headD ' ').isAlpha ∧ pre.all isSchemeChar
  then (pre.map Char.toLower, u.drop (pre.length + 1))
  else ([], u)

/-- Netloc recognition step of urlsplit: after a leading double slash the
netloc extends up to the first slash, question mark or hash. -/
def netlocSplit (rest : PyStr) : PyStr × PyStr :=
  if ("//".data).isPrefixOf rest then
    let r := rest.drop 2
    let nl := r.takeWhile (fun c => c != '/' && c != '?' && c != '#')
    (nl, r.drop nl.length)
  else ([], rest)

/-- Model of urllib.parse.urlsplit: scheme split, netloc split, fragment
split before query split. An unbalanced square bracket in the netloc raises
ValueError, modelled as an error value. -/
def urlsplitModel (u : PyStr) : Except Unit ParseResult :=
  let sr := schemeSplit u
  let nr := netlocSplit sr.2
  if (nr.1.contains '[' && !nr.1.contains ']') ||
     (nr.1.contains ']' && !nr.1.contains '[') then .error ()
  else
    let fr := splitFirst '#' nr.2
    let qr := splitFirst '?' fr.1
    .ok ⟨sr.1, nr.1, qr.1, (qr.2).getD [], (fr.2).getD []⟩

/-- Model of urllib.parse.urlparse: urlsplit followed by the parameter split
on the path component. -/
def urlparseModel (u : PyStr) : Except Unit ParseResult :=
  match urlsplitModel u with
  | .error e => .error e
  | .ok r => .ok { r with path := splitParamsPath r.path }

/-- Model of src/core/utils.py normalize_url with no base URL: strip the
fragment and surrounding whitespace, prepend https when the string does not
start with http, reparse, drop a default port, default an empty path to a
single slash and keep the query. The except branch returns the pre-parse
string. -/
def normalize_url (url : PyStr) : PyStr :=
  if url = [] then []
  else
    let u1 := pyStrip (url.takeWhile (fun c => c != '#'))
    if u1 = [] then []
    else
      let u2 := if ("http".data).isPrefixOf u1 then u1 else "https://".data ++ u1
      match urlparseModel u2 with
      | .error _ => u2
      | .ok p =>
        let netloc :=
          if p.scheme = "https".data ∧ (":443".data).isSuffixOf p.netloc then
            p.netloc.take (p.netloc.length - 4)
          else if p.scheme = "http".data ∧ (":80".data).isSuffixOf p.netloc then
            p.netloc.take (p.netloc.length - 3)
          else p.netloc
        let path := if p.path = [] then "/".data else p.path
        let query := if p.query = [] then [] else '?' :: p.query
        p.scheme ++ "://".data ++ netloc ++ path ++ query

/-- Model of Python str.replace applied with pattern www. and empty
replacement: every occurrence is removed, scanning left to right. -/
def stripWww : PyStr → PyStr
  | 'w' :: 'w' :: 'w' :: '.' :: rest => stripWww rest
  | c :: rest => c :: stripWww rest
  | [] => []

/-- Model of src/core/utils.py extract_domain: the netloc of the parsed URL
with every occurrence of www. removed; the except branch returns the empty
string. -/
def extract_domain (url : PyStr) : PyStr :=
  match urlparseModel url with
  | .ok r => stripWww r.netloc
  | .error _ => []

/-- Model of src/core/utils.py is_internal_url: the extracted domain of the
URL equals the extracted domain of the target, or ends with a dot followed by
it. The target gains an https scheme when it does not start with http. -/
def is_internal_url (url domain : PyStr) : Bool :=
  let ud := extract_domain url
  let td := extract_domain (if ("http".data).isPrefixOf domain then domain
                            else "https://".data ++ domain)
  ud == td || ('.' :: td).isSuffixOf ud

/-- String level wrapper for normalize_url. -/
def normalizeUrlS (s : String) : String := ⟨normalize_url s.data⟩

/-- String level wrapper for is_internal_url. -/
def isInternalUrlS (url domain : String) : Bool := is_internal_url url.data domain.data

/-- Well formed scheme component: starts with the four characters http (the
only schemes that escape the https prepend) and consists of scheme
characters. -/
def wfScheme (s : PyStr) : Prop :=
  ("http".data).isPrefixOf s = true ∧ s.all isSchemeChar = true

/-- Well formed host component: nonempty, free of the netloc delimiters, of
square brackets and of whitespace. -/
def wfHost (h : PyStr) : Prop :=
  h ≠ [] ∧ ∀ c ∈ h, c ≠ '/' ∧ c ≠ '?' ∧ c ≠ '#' ∧ c ≠ '[' ∧ c ≠ ']' ∧ isPySpace c = false

/-- Well formed path component: empty or starting with a slash, free of
query, fragment, parameter delimiters and whitespace. -/
def wfPath (p : PyStr) : Prop :=
  (p = [] ∨ ∃ t, p = '/' :: t) ∧
    ∀ c ∈ p, c ≠ '?' ∧ c ≠ '#' ∧ c ≠ ';' ∧ isPySpace c = false

/-- Well formed query component: free of the fragment delimiter and of
whitespace. -/
def wfQuery (q : PyStr) : Prop :=
  ∀ c ∈ q, c ≠ '#' ∧ isPySpace c = false

/-- Query rendering of the rebuild step: a question mark before a nonempty
query, nothing otherwise. -/
def qpart (q : PyStr) : PyStr := if q = [] then [] else '?' :: q

/-- Default port removal of normalize_url: one trailing 443 suffix for the
https scheme, one trailing 80 suffix for the http scheme. -/
def dropDefaultPort (scheme h : PyStr) : PyStr :=
  if scheme = "https".data ∧ (":443".data).isSuffixOf h then h.take (h.length - 4)
  else if scheme = "http".data ∧ (":80".data).isSuffixOf h then h.take (h.length - 3)
  else h

/-! ## Scorer (src/qa_engine/core/scorer.py) -/

/-- An issue record; the scorer only reads the severity, which is absent for
some producers, hence the option (Python dict get with default low). -/
structure Issue where
  category : String
  title : String
  severity : Option String
deriving DecidableEq, Repr

/-- The module level WEIGHTS table of scorer.py. -/
def WEIGHTS : List (String × ℚ) :=
  [("critical", 20), ("high", 10), ("medium", 5), ("low", 2)]

/-- Python WEIGHTS.get(sev, 1): table lookup with default 1. -/
def weightsGet (sev : String) : ℚ :=
  match WEIGHTS.find? (fun kv => kv.1 == sev) with
  | some kv => kv.2
  | none => 1

/-- Effective severity of an issue: issue.get with default low. -/
def effSeverity (i : Issue) : String := i.severity.getD "low"

/-- Scorer.score_page: start from the base score, subtract the weight of each
issue severity, clamp at zero at the end. -/
def score_page (base : ℚ) (issues : List Issue) : ℚ :=
  max (issues.foldl (fun s i => s - weightsGet (effSeverity i)) base) 0

/-- A page record as read by Scorer.global_score (only the score field). -/
structure ScoredPage where
  url : String
  score : ℚ
deriving DecidableEq, Repr

/-- Scorer.global_score: zero for an empty list, otherwise the sum of the
scores divided by the number of pages. -/
def global_score (pages : List ScoredPage) : ℚ :=
  if pages = [] then 0
  else (pages.map ScoredPage.score).sum / (pages.length : ℚ)

/-! ## Liveness validator (src/core/validator.py) -/

/-- The accepted status list of URLValidator. -/
def aliveStatuses : List Nat := [200, 201, 202, 204, 206, 301, 302, 303, 307, 308]

/-- Outcome of the underlying HTTP HEAD probe for one URL: either a status
code and content length, or a raised exception (timeout, connection error or
other). -/
abbrev ProbeFn := String → Except String (Nat × Nat)

/-- URLValidator.validate_url: the probe result, with every exception caught
and turned into status 0 and length 0. -/
def validate_url (probe : ProbeFn) (u : String) : Nat × Nat :=
  match probe u with
  | .ok r => r
  | .error _ => (0, 0)

/-- One entry of the validate_batch result dictionary. -/
structure VEntry where
  status : Nat
  content_length : Nat
  alive : Bool
deriving DecidableEq, Repr

/-- URLValidator.validate_batch, restricted to a single URL: builds the
result entry with the alive flag decided by membership in the accepted
status list. -/
def batchEntry (probe : ProbeFn) (u : String) : VEntry :=
  let r := validate_url probe u
  ⟨r.1, r.2, aliveStatuses.contains r.1⟩

/-- URLValidator.check_alive: membership of the probed status in the accepted
status list. -/
def check_alive (probe : ProbeFn) (u : String) : Bool :=
  aliveStatuses.contains (validate_url probe u).1

/-! ## Enumerator (src/core/main_enum.py) -/

/-- Value stored per URL in URLEnumerator.all_urls. The Python source set is
modelled as a duplicate free list in insertion order. -/
structure UrlInfo where
  sources : List String
  status : Option Nat
  content_length : Nat
  alive : Bool
deriving DecidableEq, Repr

/-- The all_urls dictionary: an association list in insertion order with
distinct keys. -/
abbrev EnumState := List (String × UrlInfo)

/-- Lookup in an association list by key, first match. -/
def lookupKey {β : Type} : List (String × β) → String → Option β
  | [], _ => none
  | (k, v) :: rest, u => if k = u then some v else lookupKey rest u

/-- Adding a source tag to an entry (Python set add). -/
def addSourceTag (info : UrlInfo) (src : String) : UrlInfo :=
  if src ∈ info.sources then info else { info with sources := info.sources ++ [src] }

/-- Dictionary upsert used by URLEnumerator._add_url: create the entry with
an empty record when the key is new, then add the source tag. -/
def upsert : EnumState → String → String → EnumState
  | [], u, src => [(u, ⟨[src], none, 0, false⟩)]
  | (k, info) :: rest, u, src =>
      if k = u then (k, addSourceTag info src) :: rest
      else (k, info) :: upsert rest u src

/-- URLEnumerator._add_url: drop empty and non internal URLs, then upsert
under the normalized key with the technique tag as provenance. -/
def add_url (domain : String) (st : EnumState) (url : String) (src : String) : EnumState :=
  if url = "" ∨ is_internal_url url.data domain.data = false then st
  else upsert st (normalizeUrlS url) src

/-- Replay of an arbitrary sequence of _add_url calls (url, source tag). -/
def runInsertions (domain : String) (ins : List (String × String)) : EnumState :=
  ins.foldl (fun st pr => add_url domain st pr.1 pr.2) []

/-- URLEnumerator._validate_urls: every stored URL receives the status,
content length and alive flag of its probe entry. -/
def validateState (probe : ProbeFn) (st : EnumState) : EnumState :=
  st.map (fun e =>
    let v := batchEntry probe e.1
    (e.1, { e.2 with status := some v.status, content_length := v.content_length,
                     alive := v.alive }))

/-- utils.get_status_tag applied to the stored optional status (a stored None
and a stored 0 both print UNKNOWN, since both are falsy in Python). -/
def get_status_tag (s : Option Nat) : String :=
  match s with
  | some n => if n ≠ 0 then "[" ++ toString n ++ "]" else "[UNKNOWN]"
  | none => "[UNKNOWN]"

/-- One value of the url_details output dictionary. -/
structure OutDetail where
  status : Option Nat
  status_tag : String
  content_length : Nat
  alive : Bool
  sources : List String
deriving DecidableEq, Repr

/-- The dictionary returned by URLEnumerator._get_results. -/
structure EnumResults where
  urls : List String
  url_details : List (String × OutDetail)
  total_urls : Nat
  alive_urls : Nat
  sources_used : List String
  sources_summary : List (String × Nat)
deriving DecidableEq, Repr

/-- Default entry used to totalise dictionary indexing (Python indexing only
happens on keys known to be present). -/
def emptyInfo : UrlInfo := ⟨[], none, 0, false⟩

/-- Stored info of a URL, defaulting to the empty record. -/
def getInfo (st : EnumState) (u : String) : UrlInfo := (lookupKey st u).getD emptyInfo

/-- URLEnumerator._get_results: optionally filter to alive URLs, sort the
keys lexicographically, and emit per URL details with sorted source tags.
The sources_summary bookkeeping is tracked separately by the enumerator and
passed through. -/
def get_results (only_alive : Bool) (srcSummary : List (String × Nat))
    (st : EnumState) : EnumResults :=
  let urls0 := st.map Prod.fst
  let urls1 := if only_alive then urls0.filter (fun u => (getInfo st u).alive) else urls0
  let urls := List.insertionSort (fun a b : String => a ≤ b) urls1
  { urls := urls
    url_details := urls.map (fun u =>
      let d := getInfo st u
      (u, { status := d.status
            status_tag := get_status_tag d.status
            content_length := d.content_length
            alive := d.alive
            sources := List.insertionSort (fun a b : String => a ≤ b) d.sources }))
    total_urls := urls.length
    alive_urls := (urls.filter (fun u => (getInfo st u).alive)).length
    sources_used := srcSummary.map Prod.fst
    sources_summary := srcSummary }

/-- Whether one _add_url call with this pair passes the guard of _add_url. -/
def insAccepted (domain : String) (pr : String × String) : Bool :=
  pr.1 != "" && is_internal_url pr.1.data domain.data

/-- The key under which an accepted call is stored. -/
def insKey (pr : String × String) : String := normalizeUrlS pr.1

/-- Whether some accepted insertion contributed the key u. -/
def contributedKey (domain : String) (ins : List (String × String)) (u : String) : Bool :=
  ins.any (fun pr => insAccepted domain pr && insKey pr == u)

/-- Whether some accepted insertion contributed the key u via source tag s. -/
def contributedSrc (domain : String) (ins : List (String × String))
    (u s : String) : Bool :=
  ins.any (fun pr => insAccepted domain pr && insKey pr == u && pr.2 == s)

/-- Outcome of one technique producer: the list of URLs it hands to _add_url,
or a raised exception. -/
abbrev TechOutcome := Except String (List String)

/-- One guarded technique block of URLEnumerator.enumerate: the producer
output is folded into the state; an exception is logged and leaves the state
unchanged (the try and except wrapper of each runner). -/
def runTech (domain : String) (st : EnumState) (tag : String)
    (out : TechOutcome) : EnumState :=
  match out with
  | .ok urls => urls.foldl (fun s u => add_url domain s u tag) st
  | .error _ => st

/-- URLEnumerator.enumerate: the five guarded technique blocks in source
order (robots and sitemap share one enabling test), then validation of the
whole candidate table, then result formatting. Producer side effects are
abstracted into the outcomes map. -/
def enumerateRun (domain : String) (techniques : List String)
    (outcomes : String → TechOutcome) (probe : ProbeFn) (only_alive : Bool)
    (srcSummary : List (String × Nat)) : EnumResults :=
  let st0 : EnumState := []
  let st1 := if "live" ∈ techniques then runTech domain st0 "live_crawl" (outcomes "live") else st0
  let st2 := if "js" ∈ techniques then runTech domain st1 "js_analysis" (outcomes "js") else st1
  let st3 := if "wayback" ∈ techniques then runTech domain st2 "wayback" (outcomes "wayback") else st2
  let st4 := if "robots" ∈ techniques ∨ "sitemap" ∈ techniques then
      runTech domain (runTech domain st3 "robots" (outcomes "robots")) "sitemap" (outcomes "sitemap")
    else st3
  let st5 := if "bruteforce" ∈ techniques then runTech domain st4 "bruteforce" (outcomes "bruteforce") else st4
  get_results only_alive srcSummary (validateState probe st5)

/-! ## Page classifier (src/qa_engine/core/page_classifier.py) -/

/-- The counts PageClassifier.classify derives from the DOM metrics and from
the parsed HTML. -/
structure PageCounts where
  inputCount : Nat
  buttonCount : Nat
  tables : Nat
  forms : Nat
  listCount : Nat
  charts : Nat
  steps : Nat
  wizards : Nat
  passwordInputs : Nat
  textHasDashboard : Bool
deriving DecidableEq, Repr

/-- Rule 1: password input present, or a form with at least three inputs and
a button. -/
def ruleLogin (c : PageCounts) : Bool :=
  decide (1 ≤ c.passwordInputs ∨ (1 ≤ c.forms ∧ 3 ≤ c.inputCount ∧ 1 ≤ c.buttonCount))

/-- Rule 2: a chart element, or the page text mentions dashboard. -/
def ruleDashboard (c : PageCounts) : Bool :=
  decide (1 ≤ c.charts) || c.textHasDashboard

/-- Rule 3: a table and a list with fewer than five inputs. -/
def ruleList (c : PageCounts) : Bool :=
  decide (1 ≤ c.tables ∧ 1 ≤ c.listCount ∧ c.inputCount < 5)

/-- Rule 4: a form with at least two inputs and a button. -/
def ruleForm (c : PageCounts) : Bool :=
  decide (1 ≤ c.forms ∧ 2 ≤ c.inputCount ∧ 1 ≤ c.buttonCount)

/-- Rule 5: wizard steps or a wizard container. -/
def ruleWizard (c : PageCounts) : Bool :=
  decide (1 ≤ c.steps ∨ 1 ≤ c.wizards)

/-- Rule 6: a chart and a table. -/
def ruleReport (c : PageCounts) : Bool :=
  decide (1 ≤ c.charts ∧ 1 ≤ c.tables)

/-- PageClassifier.classify as the source writes it: a chain of guarded
returns. -/
def classify (c : PageCounts) : String :=
  if ruleLogin c then "login"
  else if ruleDashboard c then "dashboard"
  else if ruleList c then "list"
  else if ruleForm c then "form"
  else if ruleWizard c then "wizard"
  else if ruleReport c then "report"
  else "unknown"

/-- The ordered rule table of the classifier. -/
def classifierRules : List ((PageCounts → Bool) × String) :=
  [(ruleLogin, "login"), (ruleDashboard, "dashboard"), (ruleList, "list"),
   (ruleForm, "form"), (ruleWizard, "wizard"), (ruleReport, "report")]

/-- First match wins evaluation of an ordered rule table, defaulting to
unknown. -/
def firstMatchLabel : List ((PageCounts → Bool) × String) → PageCounts → String
  | [], _ => "unknown"
  | (r, lbl) :: rest, c => if r c then lbl else firstMatchLabel rest c

/-! ## Event bus (src/qa_engine/core/events.py) -/

/-- The event type enumeration. -/
inductive EventType where
  | scan_started | url_discovered | url_validated | page_testing_started
  | page_analyzed | issues_detected | score_updated | scan_completed | scan_failed
deriving DecidableEq, Repr

/-- A QAEvent record; the data payload is opaque to the bus. -/
structure QAEvent where
  type : EventType
  timestamp : String
  scan_id : String
  data : List (String × String)
deriving DecidableEq, Repr

/-- The per scan history dictionary. -/
abbrev History := List (String × List QAEvent)

/-- The history update of EventBus.emit: create the bucket of the scan when
missing, then append the event to it. -/
def histAppend : History → QAEvent → History
  | [], e => [(e.scan_id, [e])]
  | (k, es) :: rest, e =>
      if k = e.scan_id then (k, es ++ [e]) :: rest
      else (k, es) :: histAppend rest e

/-- EventBus.get_history: the bucket of the scan, defaulting to empty. -/
def get_history (hist : History) (sid : String) : List QAEvent :=
  (lookupKey hist sid).getD []

/-- Behaviour of a callback: it may raise; the bus catches it. -/
abbrev CallbackRun := Nat → QAEvent → Except String Unit

/-- EventBus.emit: append the event to the history of its scan, then invoke
every callback registered for the event type in registration order; each
invocation is wrapped in try and except so a raising callback is recorded
and the loop continues. The result is the new history and the trace of
invocations with their outcomes. -/
def emitModel (subs : EventType → List Nat) (run : CallbackRun)
    (hist : History) (e : QAEvent) : History × List (Nat × Except String Unit) :=
  (histAppend hist e, (subs e.type).map (fun cb => (cb, run cb e)))

/-- Repeated emission, threading the history. -/
def emitAll (subs : EventType → List Nat) (run : CallbackRun)
    (hist : History) : List QAEvent → History
  | [] => hist
  | e :: es => emitAll subs run (emitModel subs run hist e).1 es

/-! ## Graph builder (src/qa_engine/core/graph_builder.py) -/

/-- Value stored per URL in GraphBuilder.graph. -/
structure PageData where
  ptype : String
  score : ℚ
  issues : List Issue
deriving DecidableEq, Repr

/-- The graph dictionary in insertion order. -/
abbrev Graph := List (String × PageData)

/-- GraphBuilder.add_page: only inserts when the URL is not yet present. -/
def add_page (g : Graph) (url ptype : String) (score : ℚ) : Graph :=
  if (lookupKey g url).isSome then g else g ++ [(url, ⟨ptype, score, []⟩)]

/-- Append issues to the entry of the given key, leaving everything else
unchanged. -/
def extendIssues : Graph → String → List Issue → Graph
  | [], _, _ => []
  | (k, d) :: rest, url, is =>
      if k = url then (k, { d with issues := d.issues ++ is }) :: rest
      else (k, d) :: extendIssues rest url is

/-- GraphBuilder.add_issues: register the page with type unknown and score 0
when absent, then extend its issue list. -/
def add_issues (g : Graph) (url : String) (is : List Issue) : Graph :=
  extendIssues (if (lookupKey g url).isSome then g else add_page g url "unknown" 0) url is

/-! ## Spec side definitions used to compare code with claim wording -/

/-- Weight table exactly as the claim words it: critical 20, high 10,
medium 5, low 2. -/
def claimWeight (sev : String) : ℚ :=
  if sev = "critical" then 20
  else if sev = "high" then 10
  else if sev = "medium" then 5
  else 2

/-- Host transformation as the claim words it: strip one leading www. from
the host. -/
def specStripWww (h : PyStr) : PyStr :=
  if ("www.".data).isPrefixOf h then h.drop 4 else h

/-! ## Concrete fixtures used by witnesses and counterexamples -/

/-- A probe that answers status 200 with length 5 for every URL. -/
def probeOk : ProbeFn := fun _ => .ok (200, 5)

/-- A probe that times out for every URL. -/
def probeFail : ProbeFn := fun _ => .error "timeout"

/-- Insertion trace: one URL contributed by two techniques and another by
one. -/
def insFix : List (String × String) :=
  [("https://example.com/b", "live_crawl"),
   ("https://example.com/a", "sitemap"),
   ("https://example.com/a", "robots")]

/-- A page with one chart and one table and nothing else. -/
def chartTablePage : PageCounts :=
  ⟨0, 0, 1, 0, 0, 1, 0, 0, 0, false⟩

/-- A page with two charts and three tables and nothing else. -/
def chartsTablesPage : PageCounts :=
  ⟨0, 0, 3, 0, 0, 2, 0, 0, 0, false⟩

/-- An issue of high severity. -/
def highIssue : Issue := ⟨"functional", "console error", some "high"⟩

/-- An issue with no recorded severity. -/
def bareIssue : Issue := ⟨"content", "lorem ipsum", none⟩

/-- Two events of one scan and one of another. -/
def evA : QAEvent := ⟨EventType.scan_started, "t1", "scan1", []⟩

/-- Second event fixture. -/
def evB : QAEvent := ⟨EventType.url_discovered, "t2", "scan2", []⟩

/-- Third event fixture. -/
def evC : QAEvent := ⟨EventType.scan_completed, "t3", "scan1", []⟩

/-- A one entry graph fixture. -/
def graphFix : Graph := [("https://example.com/", ⟨"login", 90, [highIssue]⟩)]

/-! ## Helper lemmas -/

theorem foldl_sub_eq (w : Issue → ℚ) :
    ∀ (l : List Issue) (b : ℚ), l.foldl (fun s i => s - w i) b = b - (l.map w).sum := by
  intro l
  induction l with
  | nil => intro b; simp
  | cons i rest ih => intro b; simp [List.foldl_cons, ih]; ring

theorem weightsGet_eq_claimWeight (sev : String)
    (h : sev ∈ ["critical", "high", "medium", "low"]) :
    weightsGet sev = claimWeight sev := by
  fin_cases h <;> decide

/-! ## C2: scorer -/

/-- C2: for issues whose effective severities come from the set
critical, high, medium, low, score_page with the default base equals
max of 0 and 100 minus the summed claim weights; a page with no issues
scores 100; global_score is the arithmetic mean of the page scores and 0
for an empty list. -/
theorem scorer_matches_claimed_formula :
    (∀ issues : List Issue,
        (∀ i ∈ issues, effSeverity i ∈ ["critical", "high", "medium", "low"]) →
        score_page 100 issues =
          max 0 (100 - (issues.map (fun i => claimWeight (effSeverity i))).sum))
    ∧ score_page 100 [] = 100
    ∧ global_score [] = 0
    ∧ ∀ pages : List ScoredPage, pages ≠ [] →
        global_score pages = (pages.map ScoredPage.score).sum / (pages.length : ℚ) := by
  refine ⟨?_, by decide, by decide, ?_⟩
  · intro issues h
    rw [score_page, foldl_sub_eq, max_comm]
    have hm : issues.map (fun i => weightsGet (effSeverity i)) =
        issues.map (fun i => claimWeight (effSeverity i)) :=
      List.map_congr_left (fun i hi => weightsGet_eq_claimWeight (effSeverity i) (h i hi))
    rw [hm]
  · intro pages hp
    rw [global_score, if_neg hp]

/-- Witness for C2 at a concrete issue list and page list. -/
theorem scorer_matches_claimed_formula_witness :
    score_page 100 [highIssue, bareIssue] = 88
    ∧ global_score [⟨"a", 90⟩, ⟨"b", 100⟩] = 95 := by
  constructor
  · have h := scorer_matches_claimed_formula.1 [highIssue, bareIssue]
      (by intro i hi; fin_cases hi <;> decide)
    rw [h]
    simp [highIssue, bareIssue, effSeverity, claimWeight]
    norm_num
  · have h := scorer_matches_claimed_formula.2.2.2 [⟨"a", 90⟩, ⟨"b", 100⟩] (by decide)
    rw [h]
    norm_num

/-! ## C3: normalization is not idempotent -/

/-- C3 evaluation: normalize_url maps http.com to ://http.com because the
startswith http test confuses the host with a scheme, and a second pass
prepends https, so normalization is not idempotent at this input. -/
theorem normalize_not_idempotent_on_http_com :
    normalizeUrlS "http.com" = "://http.com"
    ∧ normalizeUrlS (normalizeUrlS "http.com") = "https://://http.com"
    ∧ normalizeUrlS (normalizeUrlS "http.com") ≠ normalizeUrlS "http.com" :=
  ⟨by decide, by decide, by decide⟩

/-! ## C5: liveness flag -/

/-- C5: the alive flag of a validated URL is true exactly when the status
returned by the probe is one of 200, 201, 202, 204, 206, 301, 302, 303,
307, 308; check_alive agrees with membership of the recorded status. -/
theorem alive_iff_status_accepted :
    (∀ (probe : ProbeFn) (u : String) (s len : Nat), probe u = .ok (s, len) →
        ((batchEntry probe u).alive = true ↔ s ∈ aliveStatuses))
    ∧ ∀ (probe : ProbeFn) (u : String),
        (check_alive probe u = true ↔ (validate_url probe u).1 ∈ aliveStatuses) := by
  constructor
  · intro probe u s len h
    simp [batchEntry, validate_url, h, List.contains]
  · intro probe u
    simp [check_alive, List.contains]

/-- Witness for C5 at a probe answering 200. -/
theorem alive_iff_status_accepted_witness :
    (batchEntry probeOk "https://example.com/").alive = true :=
  (alive_iff_status_accepted.1 probeOk "https://example.com/" 200 5 rfl).mpr (by decide)

/-! ## C7: classifier order and the report rule -/

/-- C7 counterexample: a page with one chart and one table that matches no
earlier rule is classified dashboard, not report, because rule 2 already
fires whenever the chart count is at least one. -/
theorem classifier_report_rule_shadowed :
    1 ≤ chartTablePage.charts ∧ 1 ≤ chartTablePage.tables ∧
    ruleLogin chartTablePage = false ∧ ruleList chartTablePage = false ∧
    ruleForm chartTablePage = false ∧ ruleWizard chartTablePage = false ∧
    ruleReport chartTablePage = true ∧
    classify chartTablePage = "dashboard" ∧ classify chartTablePage ≠ "report" := by
  decide

/-- C7 amended: classify applies its rules in order with first match
winning; but since rule 2 fires whenever the chart count is at least one, a
page with a chart and a table that does not match rule 1 is classified
dashboard, and classify never returns report. -/
theorem classifier_first_match_and_report_unreachable :
    (∀ c, classify c = firstMatchLabel classifierRules c)
    ∧ (∀ c, 1 ≤ c.charts → 1 ≤ c.tables → ruleLogin c = false →
        classify c = "dashboard")
    ∧ ∀ c, classify c ≠ "report" := by
  refine ⟨?_, ?_, ?_⟩
  · intro c
    simp [classify, classifierRules, firstMatchLabel]
  · intro c h1 h2 hl
    have hd : ruleDashboard c = true := by
      simp [ruleDashboard]
      left
      exact h1
    simp [classify, hl, hd]
  · intro c
    unfold classify
    split_ifs with h1 h2 h3 h4 h5 h6 <;> try decide
    · exfalso
      have : 1 ≤ c.charts := by
        have := h6
        simp [ruleReport] at this
        exact this.1
      simp [ruleDashboard] at h2
      omega

/-- Witness for C7 at a page with two charts and three tables. -/
theorem classifier_first_match_witness :
    classify chartsTablesPage = "dashboard" :=
  classifier_first_match_and_report_unreachable.2.1 chartsTablesPage
    (by decide) (by decide) (by decide)

/-! ## C9: event bus -/

theorem lookupKey_histAppend (e : QAEvent) (sid : String) :
    ∀ hist : History,
      lookupKey (histAppend hist e) sid =
        if e.scan_id = sid then some (get_history hist sid ++ [e])
        else lookupKey hist sid := by
  intro hist
  induction hist with
  | nil =>
      by_cases h : e.scan_id = sid <;>
        simp [histAppend, get_history, lookupKey, h]
  | cons kv rest ih =>
      obtain ⟨k, es⟩ := kv
      by_cases hk : k = e.scan_id
      · by_cases h : k = sid
        · have hes : e.scan_id = sid := by rw [← hk, h]
          simp [histAppend, get_history, lookupKey, hk, h, hes]
        · have hes : ¬ e.scan_id = sid := by rw [← hk]; exact h
          simp [histAppend, get_history, lookupKey, hk, h, hes]
      · by_cases h : k = sid
        · have hes : ¬ e.scan_id = sid := by
            intro hh
            exact hk (by rw [h, hh])
          have hes2 : ¬ sid = e.scan_id := fun hh => hes hh.symm
          simp [histAppend, get_history, lookupKey, hk, h, hes, hes2]
        · simp only [histAppend, if_neg hk]
          simp only [lookupKey, if_neg h]
          rw [ih]
          simp [get_history, lookupKey, if_neg h]

theorem get_history_histAppend (hist : History) (e : QAEvent) (sid : String) :
    get_history (histAppend hist e) sid =
      if e.scan_id = sid then get_history hist sid ++ [e] else get_history hist sid := by
  rw [get_history, lookupKey_histAppend]
  by_cases h : e.scan_id = sid <;> simp [h, get_history]

theorem emitAll_history (subs : EventType → List Nat) (run : CallbackRun) :
    ∀ (events : List QAEvent) (hist : History) (sid : String),
      get_history (emitAll subs run hist events) sid =
        get_history hist sid ++ events.filter (fun e => e.scan_id == sid) := by
  intro events
  induction events with
  | nil => intro hist sid; simp [emitAll]
  | cons e es ih =>
      intro hist sid
      simp only [emitAll, emitModel]
      rw [ih, get_history_histAppend]
      by_cases h : e.scan_id = sid
      · simp [h, List.filter_cons]
      · have hb : (e.scan_id == sid) = false := beq_false_of_ne h
        simp [h, List.filter_cons, hb]

/-- C9: the history of a scan after any sequence of emissions is exactly the
events emitted for that scan in emission order, regardless of what the
callbacks do; each emission invokes every callback registered for the event
type, in registration order, even when some of them raise; and the history
update of an emission does not depend on the callback outcomes. -/
theorem event_bus_history_and_fanout :
    (∀ (subs : EventType → List Nat) (run : CallbackRun) (events : List QAEvent)
        (sid : String),
        get_history (emitAll subs run [] events) sid =
          events.filter (fun e => e.scan_id == sid))
    ∧ (∀ (subs : EventType → List Nat) (run : CallbackRun) (hist : History) (e : QAEvent),
        ((emitModel subs run hist e).2.map Prod.fst) = subs e.type)
    ∧ ∀ (subs : EventType → List Nat) (run1 run2 : CallbackRun) (hist : History)
        (e : QAEvent),
        (emitModel subs run1 hist e).1 = (emitModel subs run2 hist e).1 := by
  refine ⟨?_, ?_, ?_⟩
  · intro subs run events sid
    rw [emitAll_history]
    simp [get_history, lookupKey]
  · intro subs run hist e
    show List.map Prod.fst (List.map (fun cb => (cb, run cb e)) (subs e.type)) = subs e.type
    rw [List.map_map]
    rw [show (Prod.fst ∘ fun cb : Nat => (cb, run cb e)) = id from rfl, List.map_id]
  · intro subs run1 run2 hist e
    simp [emitModel]

/-- Witness for C9 at three concrete events over two scans, with a callback
that always raises. -/
theorem event_bus_history_witness :
    get_history (emitAll (fun _ => [7]) (fun _ _ => .error "boom") [] [evA, evB, evC])
      "scan1" = [evA, evC] := by
  have h := event_bus_history_and_fanout.1 (fun _ => [7]) (fun _ _ => .error "boom")
    [evA, evB, evC] "scan1"
  rw [h]
  decide

/-! ## C6: internality classification -/

/-- C6 counterexample: the code replaces every occurrence of the substring
www. inside the host, not just a leading one, so ewww.xample.com collapses
to example.com and is classified internal to example.com although it is
neither that host nor a subdomain of it under the claimed leading strip. -/
theorem is_internal_replaces_all_www :
    isInternalUrlS "https://ewww.xample.com" "example.com" = true
    ∧ specStripWww ("ewww.xample.com".data) ≠ specStripWww ("example.com".data)
    ∧ ¬ ('.' :: specStripWww ("example.com".data)) <:+
        specStripWww ("ewww.xample.com".data) := by
  refine ⟨by decide, by decide, by decide⟩

/-- C6 amended: a URL is classified internal to a target exactly when its
extracted host, with every occurrence of the substring www. removed, equals
the equally transformed target host or ends with a dot followed by it; the
two concrete examples of the claim hold. -/
theorem is_internal_iff_transformed_host_matches :
    (∀ url domain : PyStr,
        is_internal_url url domain = true ↔
          (extract_domain url =
              extract_domain (if ("http".data).isPrefixOf domain then domain
                              else "https://".data ++ domain)
            ∨ ∃ pre : PyStr,
                extract_domain url =
                  pre ++ '.' ::
                    extract_domain (if ("http".data).isPrefixOf domain then domain
                                    else "https://".data ++ domain)))
    ∧ isInternalUrlS "https://a.example.com/x" "example.com" = true
    ∧ isInternalUrlS "https://evil.com" "example.com" = false := by
  refine ⟨?_, by decide, by decide⟩
  intro url domain
  simp only [is_internal_url, Bool.or_eq_true, beq_iff_eq, List.isSuffixOf_iff_suffix]
  apply or_congr Iff.rfl
  constructor
  · rintro ⟨pre, hp⟩
    exact ⟨pre, hp.symm⟩
  · rintro ⟨pre, hp⟩
    exact ⟨pre, hp.symm⟩

/-- Witness for C6: internality of a subdomain URL obtained through the
suffix branch of the characterization. -/
theorem is_internal_iff_witness :
    isInternalUrlS "https://sub.example.com/p" "example.com" = true :=
  (is_internal_iff_transformed_host_matches.1 "https://sub.example.com/p".data
    "example.com".data).mpr (Or.inr ⟨"sub".data, by decide⟩)

/-! ## C10: graph builder -/

theorem lookupKey_append {β : Type} (g : List (String × β)) (k u : String) (v : β) :
    lookupKey (g ++ [(k, v)]) u =
      match lookupKey g u with
      | some d => some d
      | none => if k = u then some v else none := by
  induction g with
  | nil => simp [lookupKey]
  | cons kv rest ih =>
      obtain ⟨k0, v0⟩ := kv
      by_cases h : k0 = u
      · simp [lookupKey, h]
      · simp only [List.cons_append, lookupKey, if_neg h]
        exact ih

theorem lookupKey_extendIssues (g : Graph) (url : String) (is : List Issue) (u : String) :
    lookupKey (extendIssues g url is) u =
      if u = url then
        (lookupKey g url).map (fun d => { d with issues := d.issues ++ is })
      else lookupKey g u := by
  induction g with
  | nil => by_cases h : u = url <;> simp [extendIssues, lookupKey, h]
  | cons kv rest ih =>
      obtain ⟨k, d⟩ := kv
      by_cases hk : k = url
      · subst hk
        by_cases h : u = k
        · simp [extendIssues, lookupKey, h]
        · have h2 : ¬ k = u := fun hh => h hh.symm
          simp [extendIssues, lookupKey, h, h2]
      · simp only [extendIssues, if_neg hk]
        by_cases h : u = url
        · subst h
          have hku : ¬ k = u := hk
          simp only [lookupKey, if_neg hku]
          rw [ih]
          simp
        · by_cases hku : k = u
          · subst hku
            simp [lookupKey, h, ih]
          · simp only [lookupKey, if_neg hku]
            rw [ih]
            simp [h]

/-- C10: add_page on a URL already present leaves the graph unchanged;
add_issues on an absent URL creates the entry with type unknown and score 0
and the given issues; add_issues on a present URL only appends to its issue
list, preserving type and score; and entries of other URLs are untouched. -/
theorem graph_first_registration_wins_and_issues_append :
    (∀ (g : Graph) (url t : String) (s : ℚ), (lookupKey g url).isSome →
        add_page g url t s = g)
    ∧ (∀ (g : Graph) (url : String) (is : List Issue), lookupKey g url = none →
        lookupKey (add_issues g url is) url = some ⟨"unknown", 0, is⟩)
    ∧ (∀ (g : Graph) (url : String) (is : List Issue) (d : PageData),
        lookupKey g url = some d →
        lookupKey (add_issues g url is) url = some ⟨d.ptype, d.score, d.issues ++ is⟩)
    ∧ ∀ (g : Graph) (url : String) (is : List Issue) (u : String), u ≠ url →
        lookupKey (add_issues g url is) u = lookupKey g u := by
  refine ⟨?_, ?_, ?_, ?_⟩
  · intro g url t s h
    simp [add_page, h]
  · intro g url is h
    have hnot : (lookupKey g url).isSome = false := by rw [h]; rfl
    rw [add_issues, add_page, hnot]
    simp only [Bool.false_eq_true, if_false]
    rw [lookupKey_extendIssues, if_pos rfl, lookupKey_append, h]
    simp
  · intro g url is d h
    have hsome : (lookupKey g url).isSome = true := by simp [h]
    simp only [add_issues, if_pos hsome]
    rw [lookupKey_extendIssues, if_pos rfl, h]
    rfl
  · intro g url is u hne
    by_cases hsome : (lookupKey g url).isSome = true
    · simp only [add_issues, if_pos hsome]
      rw [lookupKey_extendIssues, if_neg hne]
    · have hnot : (lookupKey g url).isSome = false := by
        cases hv : lookupKey g url
        · rfl
        · exact absurd (by simp [hv]) hsome
      rw [add_issues, add_page, hnot]
      simp only [Bool.false_eq_true, if_false]
      rw [lookupKey_extendIssues, if_neg hne, lookupKey_append]
      have hnu : ¬ url = u := fun hh => hne hh.symm
      simp only [hnu, if_false]
      cases lookupKey g u <;> rfl

/-- Witness for C10 on a concrete one page graph. -/
theorem graph_first_registration_witness :
    add_page graphFix "https://example.com/" "form" 10 = graphFix
    ∧ lookupKey (add_issues graphFix "https://example.com/" [bareIssue])
        "https://example.com/" = some ⟨"login", 90, [highIssue, bareIssue]⟩
    ∧ lookupKey (add_issues graphFix "https://other.com/" [bareIssue])
        "https://other.com/" = some ⟨"unknown", 0, [bareIssue]⟩ := by
  refine ⟨?_, ?_, ?_⟩
  · exact graph_first_registration_wins_and_issues_append.1 graphFix
      "https://example.com/" "form" 10 (by decide)
  · have h := graph_first_registration_wins_and_issues_append.2.2.1 graphFix
      "https://example.com/" [bareIssue] ⟨"login", 90, [highIssue]⟩ (by decide)
    rw [h]
    rfl
  · exact graph_first_registration_wins_and_issues_append.2.1 graphFix
      "https://other.com/" [bareIssue] (by decide)

/-! ## C4: normalization component behaviour -/

theorem takeWhile_append_all {f : Char → Bool} :
    ∀ (xs ys : PyStr), (∀ c ∈ xs, f c = true) →
      (xs ++ ys).takeWhile f = xs ++ ys.takeWhile f := by
  intro xs
  induction xs with
  | nil => intro ys _; simp
  | cons c cs ih =>
      intro ys hall
      have hc : f c = true := hall c (by simp)
      simp only [List.cons_append, List.takeWhile_cons, hc, if_true]
      rw [ih ys (fun d hd => hall d (by simp [hd]))]

theorem takeWhile_eq_self_of_all {f : Char → Bool} {xs : PyStr}
    (h : ∀ c ∈ xs, f c = true) : xs.takeWhile f = xs := by
  have h2 := takeWhile_append_all xs [] h
  simpa using h2

theorem takeWhile_cons_stop {f : Char → Bool} {c : Char} (cs : PyStr)
    (h : f c = false) : (c :: cs).takeWhile f = [] := by
  simp [List.takeWhile_cons, h]

theorem takeWhile_idem {f : Char → Bool} (xs : PyStr) :
    (xs.takeWhile f).takeWhile f = xs.takeWhile f :=
  takeWhile_eq_self_of_all (fun _ hc => List.mem_takeWhile_imp hc)

theorem dropWhile_eq_self_of_all {f : Char → Bool} {xs : PyStr}
    (h : ∀ c ∈ xs, f c = false) : xs.dropWhile f = xs := by
  cases xs with
  | nil => rfl
  | cons c cs => simp [List.dropWhile_cons, h c (by simp)]

theorem pyStrip_eq_self {xs : PyStr} (h : ∀ c ∈ xs, isPySpace c = false) :
    pyStrip xs = xs := by
  rw [pyStrip, dropWhile_eq_self_of_all h, dropWhile_eq_self_of_all, List.reverse_reverse]
  intro c hc
  exact h c (by simpa using hc)

theorem contains_eq_false_of_not_mem {a : Char} {l : PyStr} (h : a ∉ l) :
    l.contains a = false := by
  by_contra hb
  exact h (List.elem_iff.mp (by simpa using hb))

theorem splitFirst_none {d : Char} {l : PyStr} (h : ∀ c ∈ l, (c != d) = true) :
    splitFirst d l = (l, none) := by
  simp only [splitFirst, takeWhile_eq_self_of_all h]
  simp

theorem splitFirst_mid {d : Char} {a : PyStr} (b : PyStr)
    (h : ∀ c ∈ a, (c != d) = true) :
    splitFirst d (a ++ d :: b) = (a, some b) := by
  have ht : (a ++ d :: b).takeWhile (fun c => c != d) = a := by
    rw [takeWhile_append_all a (d :: b) h, takeWhile_cons_stop _ (by simp)]
    simp
  simp only [splitFirst, ht]
  have hlen : a.length ≠ (a ++ d :: b).length := by
    simp [List.length_append]
  rw [if_neg hlen]
  have hsh : a ++ d :: b = (a ++ [d]) ++ b := by simp
  rw [hsh, List.drop_left' (by simp)]

theorem isSchemeChar_props {c : Char} (h : isSchemeChar c = true) :
    c ≠ ':' ∧ c ≠ '#' ∧ c ≠ '/' ∧ c ≠ '?' ∧ isPySpace c = false := by
  refine ⟨?_, ?_, ?_, ?_, ?_⟩
  · intro he; rw [he] at h; exact absurd h (by decide)
  · intro he; rw [he] at h; exact absurd h (by decide)
  · intro he; rw [he] at h; exact absurd h (by decide)
  · intro he; rw [he] at h; exact absurd h (by decide)
  · by_contra hb
    have hsp : isPySpace c = true := by simpa using hb
    have hd : c = ' ' ∨ c = '\t' ∨ c = '\n' ∨ c = '\x0d' ∨ c = '\x0b' ∨ c = '\x0c' := by
      simpa [isPySpace, Bool.or_eq_true, decide_eq_true_eq, or_assoc] using hsp
    rcases hd with h1 | h1 | h1 | h1 | h1 | h1 <;>
      (rw [h1] at h; exact absurd h (by decide))

theorem schemeSplit_decompose {s : PyStr} (t : PyStr) (hs : wfScheme s) :
    schemeSplit (s ++ ':' :: t) = (s.map Char.toLower, t) := by
  obtain ⟨hpre, hall⟩ := hs
  obtain ⟨r, hr⟩ := List.isPrefixOf_iff_prefix.mp hpre
  have hallm : ∀ c ∈ s, isSchemeChar c = true := List.all_eq_true.mp hall
  have hnc : ∀ c ∈ s, (c != ':') = true := by
    intro c hc
    have hne := (isSchemeChar_props (hallm c hc)).1
    simpa using hne
  have hpre2 : (s ++ ':' :: t).takeWhile (fun c => c != ':') = s := by
    rw [takeWhile_append_all s (':' :: t) hnc, takeWhile_cons_stop _ (by simp)]
    simp
  have hs_shape : s = 'h' :: ("ttp".data ++ r) := by rw [← hr]; rfl
  simp only [schemeSplit, hpre2]
  rw [if_pos ?cond]
  case cond =>
    refine ⟨?_, ?_, ?_, hall⟩
    · simp only [List.length_append, List.length_cons]
      omega
    · rw [hs_shape]; simp
    · rw [hs_shape]; rfl
  have hdrop : (s ++ ':' :: t).drop (s.length + 1) = t := by
    have hsh : s ++ ':' :: t = (s ++ [':']) ++ t := by simp
    rw [hsh, List.drop_left' (by simp)]
  rw [hdrop]

theorem netlocSplit_decompose {h t : PyStr}
    (hh : ∀ c ∈ h, ((c != '/') && (c != '?') && (c != '#')) = true)
    (ht : t.takeWhile (fun c => (c != '/') && (c != '?') && (c != '#')) = []) :
    netlocSplit ("//".data ++ (h ++ t)) = (h, t) := by
  have hpf : ("//".data).isPrefixOf ("//".data ++ (h ++ t)) = true :=
    List.isPrefixOf_iff_prefix.mpr (List.prefix_append _ _)
  simp only [netlocSplit, hpf, if_true]
  have hdrop2 : ("//".data ++ (h ++ t)).drop 2 = h ++ t := rfl
  rw [hdrop2]
  have hnl : (h ++ t).takeWhile (fun c => (c != '/') && (c != '?') && (c != '#')) = h := by
    rw [takeWhile_append_all h t hh, ht]
    simp
  rw [hnl, List.drop_left]

theorem urlsplit_decompose (s h p q : PyStr) (hs : wfScheme s) (hh : wfHost h)
    (hp : wfPath p) (hq : wfQuery q) :
    urlsplitModel (s ++ "://".data ++ h ++ p ++ qpart q) =
      .ok ⟨s.map Char.toLower, h, p, q, []⟩ := by
  have hshape : s ++ "://".data ++ h ++ p ++ qpart q
      = s ++ ':' :: ("//".data ++ (h ++ (p ++ qpart q))) := by
    simp
  have hh2 : ∀ c ∈ h, ((c != '/') && (c != '?') && (c != '#')) = true := by
    intro c hc
    obtain ⟨h1, h2, h3, _, _, _⟩ := hh.2 c hc
    simp [h1, h2, h3]
  have hstop : (p ++ qpart q).takeWhile
      (fun c => (c != '/') && (c != '?') && (c != '#')) = [] := by
    rcases hp.1 with hpe | ⟨t0, hpt⟩
    · rw [hpe]
      by_cases hqe : q = []
      · simp [qpart, hqe]
      · simp only [qpart, if_neg hqe, List.nil_append]
        exact takeWhile_cons_stop _ (by decide)
    · rw [hpt]
      exact takeWhile_cons_stop _ (by decide)
  have hb1 : h.contains '[' = false :=
    contains_eq_false_of_not_mem (fun hm => (hh.2 _ hm).2.2.2.1 rfl)
  have hb2 : h.contains ']' = false :=
    contains_eq_false_of_not_mem (fun hm => (hh.2 _ hm).2.2.2.2.1 rfl)
  have hfr : splitFirst '#' (p ++ qpart q) = (p ++ qpart q, none) := by
    apply splitFirst_none
    intro c hc
    rcases List.mem_append.mp hc with hcp | hcq
    · simpa using (hp.2 c hcp).2.1
    · by_cases hqe : q = []
      · rw [hqe] at hcq; simp [qpart] at hcq
      · simp only [qpart, if_neg hqe] at hcq
        rcases List.mem_cons.mp hcq with hce | hcm
        · rw [hce]; decide
        · simpa using (hq c hcm).1
  have hpn : ∀ c ∈ p, (c != '?') = true := by
    intro c hc
    simpa using (hp.2 c hc).1
  rw [hshape, urlsplitModel]
  rw [schemeSplit_decompose ("//".data ++ (h ++ (p ++ qpart q))) hs]
  simp only
  rw [netlocSplit_decompose hh2 hstop]
  simp only [hb1, hb2, Bool.false_and, Bool.and_false, Bool.or_self, Bool.false_or,
    Bool.not_false]
  rw [if_neg (by simp)]
  rw [hfr]
  simp only
  by_cases hqe : q = []
  · have hq0 : qpart q = [] := by simp [qpart, hqe]
    rw [hq0, List.append_nil, splitFirst_none hpn]
    simp [hqe]
  · have hq1 : qpart q = '?' :: q := by simp [qpart, hqe]
    rw [hq1, splitFirst_mid q hpn]
    rfl

theorem urlparse_decompose (s h p q : PyStr) (hs : wfScheme s) (hh : wfHost h)
    (hp : wfPath p) (hq : wfQuery q) :
    urlparseModel (s ++ "://".data ++ h ++ p ++ qpart q) =
      .ok ⟨s.map Char.toLower, h, p, q, []⟩ := by
  rw [urlparseModel, urlsplit_decompose s h p q hs hh hp hq]
  have hsc : p.contains ';' = false :=
    contains_eq_false_of_not_mem (fun hm => (hp.2 _ hm).2.2.1 rfl)
  have hsp2 : splitParamsPath p = p := by
    simp only [splitParamsPath, hsc]
    simp
  simp [hsp2]

theorem scheme_of_urlsplit_https (v : PyStr) (pr : ParseResult)
    (h : urlsplitModel ("https://".data ++ v) = .ok pr) :
    pr.scheme = "https".data := by
  have hsh : "https://".data ++ v = "https".data ++ ':' :: ("//".data ++ v) := rfl
  have hss : schemeSplit ("https://".data ++ v) = ("https".data, "//".data ++ v) := by
    rw [hsh, @schemeSplit_decompose ("https".data) ("//".data ++ v) ⟨rfl, rfl⟩]
    rfl
  simp only [urlsplitModel, hss] at h
  split at h
  · exact absurd h (by simp)
  · simp only [Except.ok.injEq] at h
    rw [← h]

theorem scheme_of_urlparse_https (v : PyStr) (pr : ParseResult)
    (h : urlparseModel ("https://".data ++ v) = .ok pr) :
    pr.scheme = "https".data := by
  rw [urlparseModel] at h
  cases hsp : urlsplitModel ("https://".data ++ v) with
  | error e => rw [hsp] at h; exact absurd h (by simp)
  | ok r =>
      rw [hsp] at h
      simp only [Except.ok.injEq] at h
      have hr := scheme_of_urlsplit_https v r hsp
      rw [← h]
      exact hr

/-- C4 amended: normalization ignores everything from the first hash on;
when the input does not begin with http it gains the https scheme; and on a
well formed scheme://host path ?query input the output is the lowercased
scheme, the host with one default port suffix removed, the path defaulted
to a single slash when empty and the query kept verbatim; the case of host,
path and query is preserved, only the scheme is folded. -/
theorem normalize_url_component_behaviour :
    (∀ u : PyStr, normalize_url u = normalize_url (u.takeWhile (fun c => c != '#')))
    ∧ (∀ u : PyStr, u ≠ [] → (∀ c ∈ u, isPySpace c = false ∧ c ≠ '#') →
        ("http".data).isPrefixOf u = false →
        ("https://".data).isPrefixOf (normalize_url u) = true)
    ∧ ∀ s h p q : PyStr, wfScheme s → wfHost h → wfPath p → wfQuery q →
        normalize_url (s ++ "://".data ++ h ++ p ++ qpart q) =
          (s.map Char.toLower) ++ "://".data ++
            dropDefaultPort (s.map Char.toLower) h ++
            (if p = [] then "/".data else p) ++ qpart q := by
  refine ⟨?_, ?_, ?_⟩
  · intro u
    by_cases hu : u = []
    · rw [hu]; rfl
    · by_cases htw : u.takeWhile (fun c => c != '#') = []
      · simp only [normalize_url, if_neg hu, htw, takeWhile_idem]
        simp [pyStrip, htw]
      · simp only [normalize_url, if_neg hu, if_neg htw, takeWhile_idem]
  · intro u hne hw hnp
    have htw : u.takeWhile (fun c => c != '#') = u :=
      takeWhile_eq_self_of_all (fun c hc => by simpa using (hw c hc).2)
    have hstrip : pyStrip u = u := pyStrip_eq_self (fun c hc => (hw c hc).1)
    rw [normalize_url]
    simp only [if_neg hne, htw, hstrip, if_neg hne, hnp, Bool.false_eq_true, if_false]
    cases hpm : urlparseModel ("https://".data ++ u) with
    | error e =>
        exact List.isPrefixOf_iff_prefix.mpr (List.prefix_append _ _)
    | ok pr =>
        have hsch := scheme_of_urlparse_https u pr hpm
        dsimp only
        rw [hsch]
        apply List.isPrefixOf_iff_prefix.mpr
        exact ((List.prefix_append _ _).trans (List.prefix_append _ _)).trans
          (List.prefix_append _ _)
  · intro s h p q hs hh hp hq
    have hs_ne : s ≠ [] := by
      obtain ⟨r, hr⟩ := List.isPrefixOf_iff_prefix.mp hs.1
      rw [← hr]; simp
    have hallm : ∀ c ∈ s, isSchemeChar c = true := List.all_eq_true.mp hs.2
    have hnoHash : ∀ c ∈ s ++ "://".data ++ h ++ p ++ qpart q, (c != '#') = true := by
      intro c hc
      simp only [List.append_assoc, List.mem_append] at hc
      rcases hc with hc | hc | hc | hc | hc
      · simpa using (isSchemeChar_props (hallm c hc)).2.1
      · fin_cases hc <;> decide
      · simpa using (hh.2 c hc).2.2.1
      · simpa using (hp.2 c hc).2.1
      · by_cases hqe : q = []
        · rw [hqe] at hc; simp [qpart] at hc
        · simp only [qpart, if_neg hqe] at hc
          rcases List.mem_cons.mp hc with hce | hcm
          · rw [hce]; decide
          · simpa using (hq c hcm).1
    have hnoWs : ∀ c ∈ s ++ "://".data ++ h ++ p ++ qpart q, isPySpace c = false := by
      intro c hc
      simp only [List.append_assoc, List.mem_append] at hc
      rcases hc with hc | hc | hc | hc | hc
      · exact (isSchemeChar_props (hallm c hc)).2.2.2.2
      · fin_cases hc <;> decide
      · exact (hh.2 c hc).2.2.2.2.2
      · exact (hp.2 c hc).2.2.2
      · by_cases hqe : q = []
        · rw [hqe] at hc; simp [qpart] at hc
        · simp only [qpart, if_neg hqe] at hc
          rcases List.mem_cons.mp hc with hce | hcm
          · rw [hce]; decide
          · exact (hq c hcm).2
    have hne : s ++ "://".data ++ h ++ p ++ qpart q ≠ [] := by
      cases hs0 : s with
      | nil => exact absurd hs0 hs_ne
      | cons a as => simp [hs0]
    have htw : (s ++ "://".data ++ h ++ p ++ qpart q).takeWhile (fun c => c != '#') =
        s ++ "://".data ++ h ++ p ++ qpart q :=
      takeWhile_eq_self_of_all hnoHash
    have hstrip : pyStrip (s ++ "://".data ++ h ++ p ++ qpart q) =
        s ++ "://".data ++ h ++ p ++ qpart q :=
      pyStrip_eq_self hnoWs
    have hpre : ("http".data).isPrefixOf (s ++ "://".data ++ h ++ p ++ qpart q) = true := by
      apply List.isPrefixOf_iff_prefix.mpr
      have h1 : ("http".data : PyStr) <+: s := List.isPrefixOf_iff_prefix.mp hs.1
      have h2 : s <+: s ++ "://".data := List.prefix_append _ _
      have h3 : s ++ "://".data <+: s ++ "://".data ++ h := List.prefix_append _ _
      have h4 : s ++ "://".data ++ h <+: s ++ "://".data ++ h ++ p := List.prefix_append _ _
      have h5 : s ++ "://".data ++ h ++ p <+: s ++ "://".data ++ h ++ p ++ qpart q :=
        List.prefix_append _ _
      exact (((h1.trans h2).trans h3).trans h4).trans h5
    rw [normalize_url]
    simp only [if_neg hne, htw, hstrip, hpre, if_true]
    rw [urlparse_decompose s h p q hs hh hp hq]
    simp only [dropDefaultPort, qpart]

/-- C4 counterexample: the host case is preserved, not folded; at this input
the claimed folding would give a lowercase host, but the code returns the
host unchanged. -/
theorem normalize_url_keeps_host_case :
    normalizeUrlS "http://EXAMPLE.com/a" = "http://EXAMPLE.com/a"
    ∧ normalizeUrlS "http://EXAMPLE.com/a" ≠ "http://example.com/a" :=
  ⟨by decide, by decide⟩

/-- Witness for C4: concrete instances of the three conjuncts; the scheme of
the third is httpS, folded to https, whose default port is then dropped while
the host case survives. -/
theorem normalize_url_component_witness :
    normalize_url ("https://x.com/a#frag".data) =
      normalize_url ("https://x.com/a".data)
    ∧ ("https://".data).isPrefixOf (normalize_url ("Example.com/a".data)) = true
    ∧ normalize_url ("httpS://EXAMPLE.com:443/Path?A=b".data) =
        ("https://EXAMPLE.com/Path?A=b".data) := by
  refine ⟨?_, ?_, ?_⟩
  · have h := normalize_url_component_behaviour.1 ("https://x.com/a#frag".data)
    rw [h]
    decide
  · exact normalize_url_component_behaviour.2.1 ("Example.com/a".data)
      (by decide) (by decide) (by decide)
  · have hhs : wfScheme ("httpS".data) := ⟨rfl, rfl⟩
    have hhh : wfHost ("EXAMPLE.com:443".data) := ⟨by decide, by decide⟩
    have hhp : wfPath ("/Path".data) := ⟨Or.inr ⟨"Path".data, rfl⟩, by decide⟩
    have hhq : wfQuery ("A=b".data) := by
      show ∀ c ∈ ("A=b".data), c ≠ '#' ∧ isPySpace c = false
      decide
    have h := normalize_url_component_behaviour.2.2 ("httpS".data) ("EXAMPLE.com:443".data)
      ("/Path".data) ("A=b".data) hhs hhh hhp hhq
    calc normalize_url ("httpS://EXAMPLE.com:443/Path?A=b".data)
        = normalize_url (("httpS".data) ++ "://".data ++ ("EXAMPLE.com:443".data) ++
            ("/Path".data) ++ qpart ("A=b".data)) := by decide
      _ = ("httpS".data).map Char.toLower ++ "://".data ++
            dropDefaultPort (("httpS".data).map Char.toLower) ("EXAMPLE.com:443".data) ++
            (if ("/Path".data : PyStr) = [] then "/".data else "/Path".data) ++
            qpart ("A=b".data) := h
      _ = ("https://EXAMPLE.com/Path?A=b".data) := by decide

/-! ## C1: enumerator output is deduplicated, sorted, with sorted provenance -/

theorem upsert_keys (st : EnumState) (u src : String) :
    (upsert st u src).map Prod.fst =
      if u ∈ st.map Prod.fst then st.map Prod.fst else st.map Prod.fst ++ [u] := by
  induction st with
  | nil => simp [upsert]
  | cons kv rest ih =>
      obtain ⟨k, info⟩ := kv
      by_cases hk : k = u
      · simp [upsert, hk]
      · have hku : ¬ u = k := fun hh => hk hh.symm
        simp only [upsert, if_neg hk, List.map_cons]
        rw [ih]
        by_cases hm : u ∈ rest.map Prod.fst
        · simp [hm, hku]
        · simp [hm, hku]

theorem lookupKey_upsert (st : EnumState) (u v src : String) :
    lookupKey (upsert st u src) v =
      if v = u then
        some (match lookupKey st u with
              | some info => addSourceTag info src
              | none => ⟨[src], none, 0, false⟩)
      else lookupKey st v := by
  induction st generalizing v with
  | nil =>
      by_cases h : v = u
      · subst h
        simp [upsert, lookupKey]
      · have h2 : ¬ u = v := fun hh => h hh.symm
        simp [upsert, lookupKey, h, h2]
  | cons kv rest ih =>
      obtain ⟨k, info⟩ := kv
      by_cases hk : k = u
      · subst hk
        by_cases hv : v = k
        · subst hv
          simp [upsert, lookupKey]
        · have hkv : ¬ k = v := fun hh => hv hh.symm
          simp [upsert, lookupKey, hv, hkv]
      · by_cases hv : k = v
        · have hvu : ¬ v = u := fun hh => hk (hv.trans hh)
          simp [upsert, lookupKey, hk, hv, hvu]
        · by_cases hvv : v = u
          · simp [upsert, lookupKey, hk, hv, hvv, ih]
          · simp [upsert, lookupKey, hk, hv, hvv, ih]

theorem lookupKey_isSome_iff {β : Type} (st : List (String × β)) (u : String) :
    (lookupKey st u).isSome = true ↔ u ∈ st.map Prod.fst := by
  induction st with
  | nil => simp [lookupKey]
  | cons kv rest ih =>
      obtain ⟨k, v⟩ := kv
      by_cases hk : k = u
      · simp [lookupKey, hk]
      · have hku : ¬ u = k := fun hh => hk hh.symm
        simp [lookupKey, hk, hku, ih]

theorem addSourceTag_mem (info : UrlInfo) (src s : String) :
    s ∈ (addSourceTag info src).sources ↔ s ∈ info.sources ∨ s = src := by
  rw [addSourceTag]
  by_cases h : src ∈ info.sources
  · simp only [if_pos h]
    constructor
    · exact Or.inl
    · rintro (hs | hs)
      · exact hs
      · rw [hs]; exact h
  · simp [if_neg h]

theorem addSourceTag_nodup (info : UrlInfo) (src : String)
    (h : info.sources.Nodup) : (addSourceTag info src).sources.Nodup := by
  rw [addSourceTag]
  by_cases hm : src ∈ info.sources
  · simp [hm, h]
  · simp [hm, List.nodup_append, h]

theorem contributedSrc_imp_key (domain : String) (ins : List (String × String))
    (u s : String) (h : contributedSrc domain ins u s = true) :
    contributedKey domain ins u = true := by
  simp only [contributedSrc, List.any_eq_true, Bool.and_eq_true] at h
  obtain ⟨pr, hpr, ⟨ha, hk⟩, hs⟩ := h
  simp only [contributedKey, List.any_eq_true, Bool.and_eq_true]
  exact ⟨pr, hpr, ha, hk⟩

theorem runInsertions_spec (domain : String) (ins : List (String × String)) :
    ((runInsertions domain ins).map Prod.fst).Nodup
    ∧ (∀ u, u ∈ (runInsertions domain ins).map Prod.fst ↔
        contributedKey domain ins u = true)
    ∧ ∀ u info, lookupKey (runInsertions domain ins) u = some info →
        info.sources.Nodup ∧
          ∀ s, s ∈ info.sources ↔ contributedSrc domain ins u s = true := by
  induction ins using List.reverseRecOn with
  | nil =>
      refine ⟨by simp [runInsertions], ?_, ?_⟩
      · intro u; simp [runInsertions, contributedKey]
      · intro u info h; simp [runInsertions, lookupKey] at h
  | append_singleton l pr ih =>
      obtain ⟨ihn, ihm, ihs⟩ := ih
      have hrun : runInsertions domain (l ++ [pr]) =
          add_url domain (runInsertions domain l) pr.1 pr.2 := by
        simp [runInsertions, List.foldl_append]
      have hkey : ∀ u, contributedKey domain (l ++ [pr]) u =
          (contributedKey domain l u || (insAccepted domain pr && (insKey pr == u))) := by
        intro u; simp [contributedKey, List.any_append]
      have hsrc : ∀ u s, contributedSrc domain (l ++ [pr]) u s =
          (contributedSrc domain l u s ||
            (insAccepted domain pr && (insKey pr == u) && (pr.2 == s))) := by
        intro u s; simp [contributedSrc, List.any_append]
      rw [hrun, add_url]
      by_cases hacc : insAccepted domain pr = true
      · have hg : ¬ (pr.1 = "" ∨ is_internal_url pr.1.data domain.data = false) := by
          simp only [insAccepted, Bool.and_eq_true, bne_iff_ne] at hacc
          push_neg
          exact ⟨hacc.1, by simp [hacc.2]⟩
        rw [if_neg hg]
        have hkeys := upsert_keys (runInsertions domain l) (normalizeUrlS pr.1) pr.2
        refine ⟨?_, ?_, ?_⟩
        · rw [hkeys]
          by_cases hm : normalizeUrlS pr.1 ∈ (runInsertions domain l).map Prod.fst
          · simp [hm, ihn]
          · simp [hm, List.nodup_append, ihn]
        · intro u
          rw [hkeys, hkey u, hacc]
          simp only [Bool.true_and, Bool.or_eq_true, beq_iff_eq, insKey]
          by_cases hm : normalizeUrlS pr.1 ∈ (runInsertions domain l).map Prod.fst
          · rw [if_pos hm]
            rw [ihm u]
            constructor
            · intro hu; exact Or.inl hu
            · rintro (hu | hu)
              · exact hu
              · exact (ihm u).mp (hu ▸ hm)
          · rw [if_neg hm]
            simp only [List.mem_append, List.mem_singleton]
            rw [ihm u]
            constructor
            · rintro (hu | hu)
              · exact Or.inl hu
              · exact Or.inr hu.symm
            · rintro (hu | hu)
              · exact Or.inl hu
              · exact Or.inr hu.symm
        · intro u info h
          rw [lookupKey_upsert] at h
          by_cases hv : u = normalizeUrlS pr.1
          · subst hv
            rw [if_pos rfl] at h
            cases hl : lookupKey (runInsertions domain l) (normalizeUrlS pr.1) with
            | none =>
                rw [hl] at h
                simp only [Option.some.injEq] at h
                have hnotmem : normalizeUrlS pr.1 ∉ (runInsertions domain l).map Prod.fst := by
                  rw [← lookupKey_isSome_iff]
                  simp [hl]
                have hnk : contributedKey domain l (normalizeUrlS pr.1) = false := by
                  have hne : contributedKey domain l (normalizeUrlS pr.1) ≠ true :=
                    fun hc => hnotmem ((ihm _).mpr hc)
                  simpa using hne
                refine ⟨by rw [← h]; simp, ?_⟩
                intro s
                rw [← h]
                rw [hsrc _ s, hacc]
                have hcs : contributedSrc domain l (normalizeUrlS pr.1) s = false := by
                  have hne : contributedSrc domain l (normalizeUrlS pr.1) s ≠ true := by
                    intro hb
                    have hck := contributedSrc_imp_key domain l _ s hb
                    rw [hnk] at hck
                    exact absurd hck (by simp)
                  simpa using hne
                simp [hcs, insKey]
                exact eq_comm
            | some info0 =>
                rw [hl] at h
                simp only [Option.some.injEq] at h
                obtain ⟨hn0, hm0⟩ := ihs _ info0 hl
                refine ⟨by rw [← h]; exact addSourceTag_nodup _ _ hn0, ?_⟩
                intro s
                rw [← h, addSourceTag_mem, hsrc _ s, hacc, hm0 s]
                simp only [Bool.or_eq_true, Bool.and_eq_true, beq_iff_eq, insKey,
                  beq_self_eq_true, true_and]
                exact or_congr Iff.rfl eq_comm
          · rw [if_neg hv] at h
            obtain ⟨hn0, hm0⟩ := ihs u info h
            refine ⟨hn0, ?_⟩
            intro s
            rw [hsrc u s]
            have hne : (insKey pr == u) = false := by
              simp only [insKey, beq_eq_false_iff_ne, ne_eq]
              exact fun hh => hv hh.symm
            simp [hne, hm0 s]
      · have hacc0 : insAccepted domain pr = false := by simpa using hacc
        have hg : pr.1 = "" ∨ is_internal_url pr.1.data domain.data = false := by
          simp only [insAccepted, Bool.and_eq_true, bne_iff_ne] at hacc
          by_cases h1 : pr.1 = ""
          · exact Or.inl h1
          · right
            by_cases h2 : is_internal_url pr.1.data domain.data = true
            · exact absurd ⟨h1, h2⟩ hacc
            · simpa using h2
        rw [if_pos hg]
        refine ⟨ihn, ?_, ?_⟩
        · intro u
          rw [hkey u, hacc0]
          simp [ihm u]
        · intro u info h
          obtain ⟨hn, hmem⟩ := ihs u info h
          refine ⟨hn, ?_⟩
          intro s
          rw [hsrc u s, hacc0]
          simp [hmem s]

theorem validateState_keys (probe : ProbeFn) (st : EnumState) :
    (validateState probe st).map Prod.fst = st.map Prod.fst := by
  rw [validateState, List.map_map]
  rfl

theorem lookupKey_validateState (probe : ProbeFn) (st : EnumState) (u : String) :
    lookupKey (validateState probe st) u =
      (lookupKey st u).map (fun info =>
        { info with status := some (batchEntry probe u).status,
                    content_length := (batchEntry probe u).content_length,
                    alive := (batchEntry probe u).alive }) := by
  induction st with
  | nil => rfl
  | cons kv rest ih =>
      obtain ⟨k, info⟩ := kv
      by_cases hk : k = u
      · subst hk
        simp [validateState, lookupKey]
      · simp only [validateState, List.map_cons, lookupKey, if_neg hk]
        rw [← validateState]
        exact ih

theorem sorted_lt_of_le_nodup {l : List String} (h1 : l.Sorted (· ≤ ·))
    (h2 : l.Nodup) : l.Sorted (· < ·) := by
  induction l with
  | nil => simp
  | cons a t ih =>
      rw [List.sorted_cons] at h1 ⊢
      rw [List.nodup_cons] at h2
      refine ⟨?_, ih h1.2 h2.2⟩
      intro b hb
      exact lt_of_le_of_ne (h1.1 b hb) (fun he => h2.1 (he ▸ hb))

/-- C1: for any insertion sequence through _add_url, any probe outcomes and
any only_alive flag, the output urls list is strictly sorted (so free of
duplicates); with the default only_alive false, a URL occurs in it exactly
once when some accepted insertion contributed its normalized key and zero
times otherwise; and every url_details entry carries a strictly sorted
source list containing exactly the tags of the techniques that contributed
that key. -/
theorem enumerator_output_spec (domain : String) (ins : List (String × String))
    (probe : ProbeFn) (only_alive : Bool) (srcSummary : List (String × Nat)) :
    ((get_results only_alive srcSummary
        (validateState probe (runInsertions domain ins))).urls).Sorted (· < ·)
    ∧ (only_alive = false → ∀ u : String,
        (get_results only_alive srcSummary
            (validateState probe (runInsertions domain ins))).urls.count u =
          if contributedKey domain ins u = true then 1 else 0)
    ∧ ∀ u det, (u, det) ∈ (get_results only_alive srcSummary
          (validateState probe (runInsertions domain ins))).url_details →
        det.sources.Sorted (· < ·)
        ∧ ∀ s, s ∈ det.sources ↔ contributedSrc domain ins u s = true := by
  obtain ⟨hnd, hmem, hsrcs⟩ := runInsertions_spec domain ins
  have hkeys : (validateState probe (runInsertions domain ins)).map Prod.fst =
      (runInsertions domain ins).map Prod.fst := validateState_keys probe _
  have hnd2 : ((validateState probe (runInsertions domain ins)).map Prod.fst).Nodup := by
    rw [hkeys]; exact hnd
  have hurls : (get_results only_alive srcSummary
      (validateState probe (runInsertions domain ins))).urls =
    List.insertionSort (fun a b : String => a ≤ b)
      (if only_alive then
        ((validateState probe (runInsertions domain ins)).map Prod.fst).filter
          (fun u => (getInfo (validateState probe (runInsertions domain ins)) u).alive)
      else (validateState probe (runInsertions domain ins)).map Prod.fst) := rfl
  have hLnd : (if only_alive then
      ((validateState probe (runInsertions domain ins)).map Prod.fst).filter
        (fun u => (getInfo (validateState probe (runInsertions domain ins)) u).alive)
    else (validateState probe (runInsertions domain ins)).map Prod.fst).Nodup := by
    by_cases hoa : only_alive = true
    · rw [hoa, if_pos rfl]
      exact hnd2.filter _
    · have hoa2 : only_alive = false := by simpa using hoa
      rw [hoa2]
      simpa using hnd2
  refine ⟨?_, ?_, ?_⟩
  · rw [hurls]
    exact sorted_lt_of_le_nodup (List.sorted_insertionSort _ _)
      ((List.perm_insertionSort _ _).nodup_iff.mpr hLnd)
  · intro hoa u
    rw [hurls, hoa]
    simp only [Bool.false_eq_true, if_false]
    rw [(List.perm_insertionSort _ _).count_eq]
    by_cases hc : contributedKey domain ins u = true
    · rw [if_pos hc]
      refine List.count_eq_one_of_mem hnd2 ?_
      rw [hkeys]
      exact (hmem u).mpr hc
    · rw [if_neg hc]
      apply List.count_eq_zero_of_not_mem
      rw [hkeys]
      exact fun hmm => hc ((hmem u).mp hmm)
  · intro u det hm
    have hdet : (get_results only_alive srcSummary
        (validateState probe (runInsertions domain ins))).url_details =
      (get_results only_alive srcSummary
          (validateState probe (runInsertions domain ins))).urls.map (fun w =>
        (w, { status := (getInfo (validateState probe (runInsertions domain ins)) w).status,
              status_tag := get_status_tag
                (getInfo (validateState probe (runInsertions domain ins)) w).status,
              content_length :=
                (getInfo (validateState probe (runInsertions domain ins)) w).content_length,
              alive := (getInfo (validateState probe (runInsertions domain ins)) w).alive,
              sources := List.insertionSort (fun a b : String => a ≤ b)
                (getInfo (validateState probe (runInsertions domain ins)) w).sources })) := rfl
    rw [hdet] at hm
    obtain ⟨u0, hu0, heq⟩ := List.mem_map.mp hm
    have h1 : u0 = u := congrArg Prod.fst heq
    subst h1
    have h2 : det =
        { status := (getInfo (validateState probe (runInsertions domain ins)) u0).status,
          status_tag := get_status_tag
            (getInfo (validateState probe (runInsertions domain ins)) u0).status,
          content_length :=
            (getInfo (validateState probe (runInsertions domain ins)) u0).content_length,
          alive := (getInfo (validateState probe (runInsertions domain ins)) u0).alive,
          sources := List.insertionSort (fun a b : String => a ≤ b)
            (getInfo (validateState probe (runInsertions domain ins)) u0).sources } :=
      (congrArg Prod.snd heq).symm
    have humem : u0 ∈ (validateState probe (runInsertions domain ins)).map Prod.fst := by
      rw [hurls] at hu0
      have h3 := (List.mem_insertionSort _).mp hu0
      by_cases hoa : only_alive = true
      · rw [hoa, if_pos rfl] at h3
        exact List.mem_of_mem_filter h3
      · have hoa2 : only_alive = false := by simpa using hoa
        rw [hoa2] at h3
        simpa using h3
    obtain ⟨info, hinfo⟩ : ∃ info,
        lookupKey (runInsertions domain ins) u0 = some info := by
      have hsome := (lookupKey_isSome_iff (runInsertions domain ins) u0).mpr
        (by rw [← hkeys]; exact humem)
      exact Option.isSome_iff_exists.mp hsome
    have hgs : (getInfo (validateState probe (runInsertions domain ins)) u0).sources =
        info.sources := by
      rw [getInfo, lookupKey_validateState, hinfo]
      rfl
    obtain ⟨hsn, hsm⟩ := hsrcs u0 info hinfo
    have hdets : det.sources =
        List.insertionSort (fun a b : String => a ≤ b) info.sources := by
      rw [h2]
      simp only
      rw [hgs]
    constructor
    · rw [hdets]
      exact sorted_lt_of_le_nodup (List.sorted_insertionSort _ _)
        ((List.perm_insertionSort _ _).nodup_iff.mpr hsn)
    · intro s
      rw [hdets, List.mem_insertionSort]
      exact hsm s

/-- Witness for C1 at a concrete insertion trace: two techniques contribute
one URL and one technique another; the shared URL appears once and the
output lists are sorted. -/
theorem enumerator_output_witness :
    (get_results false [] (validateState probeOk
        (runInsertions "example.com" insFix))).urls.count "https://example.com/a" = 1 := by
  have h := (enumerator_output_spec "example.com" insFix probeOk false []).2.1 rfl
    "https://example.com/a"
  rw [h]
  decide

/-! ## C8: failure model of the enumerator -/

/-- C8: a technique that raises contributes exactly as much as one that
returns nothing, leaving the remaining techniques untouched; a probe that
raises (timeout, connection failure or other) yields status 0, content
length 0 and alive false for its URL; and even when every producer raises
the enumerator still returns a result set, with an empty urls list. The
embedding is total exactly because every Except value is consumed by the
try and except structure of the source, so no exception escapes enumerate. -/
theorem enumerator_error_resilience :
    (∀ (domain : String) (techniques : List String) (outcomes : String → TechOutcome)
        (probe : ProbeFn) (oa : Bool) (ss : List (String × Nat)) (t e : String),
        enumerateRun domain techniques (Function.update outcomes t (.error e)) probe oa ss =
          enumerateRun domain techniques (Function.update outcomes t (.ok [])) probe oa ss)
    ∧ (∀ (probe : ProbeFn) (u e : String), probe u = .error e →
        batchEntry probe u = ⟨0, 0, false⟩)
    ∧ ∀ (domain : String) (techniques : List String) (e : String) (probe : ProbeFn)
        (oa : Bool) (ss : List (String × Nat)),
        (enumerateRun domain techniques (fun _ => .error e) probe oa ss).urls = [] := by
  refine ⟨?_, ?_, ?_⟩
  · intro domain techniques outcomes probe oa ss t e
    have key : ∀ (st : EnumState) (tag name : String),
        runTech domain st tag (Function.update outcomes t (Except.error e) name) =
          runTech domain st tag (Function.update outcomes t (Except.ok []) name) := by
      intro st tag name
      by_cases hn : name = t
      · subst hn
        simp [Function.update, runTech]
      · simp [Function.update, hn]
    simp only [enumerateRun, key]
  · intro probe u e h
    simp [batchEntry, validate_url, h, aliveStatuses]
  · intro domain techniques e probe oa ss
    simp [enumerateRun, runTech, validateState, get_results]

/-- Witness for C8: a probe that times out yields the zero entry, and an
enumeration whose only technique raises returns the empty url list. -/
theorem enumerator_error_resilience_witness :
    batchEntry probeFail "https://example.com/" = ⟨0, 0, false⟩
    ∧ (enumerateRun "example.com" ["live"] (fun _ => .error "boom")
        probeOk false []).urls = [] := by
  constructor
  · exact enumerator_error_resilience.2.1 probeFail "https://example.com/" "timeout" rfl
  · exact enumerator_error_resilience.2.2 "example.com" ["live"] "boom" probeOk false []

end UrlTool

